import Mathlib

/-!
Verification of the cuCollections `static_set` concurrent hash-set core.

The repository sources provide the host container interface
(`include/cuco/static_set.cuh`), the device reference (`static_set_ref`) and
the `initialize` kernel (`include/cuco/detail/common_kernels.cuh`).  The
device-side insert / contains algorithm bodies live in `.inl` files that are
not part of the sources, so the algorithm below is modelled from the spec
(sections 4.2, 4.4, 4.5): an open-addressing table of `nwin` windows of
`wsize` slots, a deterministic probing scheme mapping `(key, probe index)` to
a window index, and per-key insert operations that scan a window, pick the
first empty slot, and commit it with an atomic compare-and-swap.  Concurrency
is modelled as an interleaving semantics: each in-flight insert operation is
a small state machine advanced one atomic action at a time by an arbitrary
schedule.  The window examination (a joint group read, spec section 4.2) is
one atomic action; the CAS is a separate atomic action, so CAS races between
the examination and the commit are represented faithfully.
-/

set_option maxHeartbeats 1000000

namespace cuco

variable {K : Type} [DecidableEq K]

/-- Phase of one in-flight insert operation (spec section 4.4).
`scanning i j` : about to examine slots `j, j+1, …` of the window at probe
step `i`; `casing i j` : about to attempt the CAS on slot `j` of the window
at probe step `i` (the slot was seen empty at the examination); `done b` :
the operation finished, `b = true` iff it newly inserted its key;
`failed` : the probe bound (one full cycle of windows) was exhausted, the
caller's signal that the set is full. -/
inductive OpState : Type where
  | scanning (i j : Nat)
  | casing (i j : Nat)
  | done (inserted : Bool)
  | failed
  deriving DecidableEq

/-- One in-flight insert operation: the key being inserted and its phase. -/
structure Op (K : Type) where
  key : K
  st : OpState
  deriving DecidableEq

/-- The shared system state: flat slot storage (window `w` occupies flat
indices `w*wsize + j`, `j < wsize`), the device counter incremented once per
successful novel insert, and the list of insert operations. -/
structure Sys (K : Type) where
  slots : Nat → K
  counter : Nat
  ops : List (Op K)

/-- Static configuration of a table: the empty-key sentinel, the probing
scheme (a pure function of key and probe index, spec section 4.2), the
number of windows and the window size. -/
structure Cfg (K : Type) where
  sent : K
  probe : K → Nat → Nat
  nwin : Nat
  wsize : Nat

/-- Total slot count of the table (= windows × window size). -/
def capacity (C : Cfg K) : Nat := C.nwin * C.wsize

/-- Flat index of slot `j` of the window visited at probe step `i` of
`k`'s probe sequence. -/
def flatIdx (C : Cfg K) (k : K) (i j : Nat) : Nat := C.probe k i * C.wsize + j

/-- The content of slot `j` of the window at step `i` of `k`'s sequence. -/
def readSlot (C : Cfg K) (slots : Nat → K) (k : K) (i j : Nat) : K :=
  slots (flatIdx C k i j)

/-- Write value `v` into flat slot `p`. -/
def writeSlot (slots : Nat → K) (p : Nat) (v : K) : Nat → K :=
  fun q => if q = p then v else slots q

/-- Examination of slots `j, j+1, …` (for `m` slots) of the window at probe
step `i`: does any slot classify as EQUAL for `k`?  Following the equality
wrapper (spec section 4.3), a slot equal to the sentinel classifies as
EMPTY, never as EQUAL. -/
def keyInWinAux (C : Cfg K) (slots : Nat → K) (k : K) (i : Nat) :
    Nat → Nat → Bool
  | 0, _ => false
  | m + 1, j =>
    (decide (readSlot C slots k i j ≠ C.sent ∧ readSlot C slots k i j = k)) ||
      keyInWinAux C slots k i m (j + 1)

/-- Whether any slot in `[j, wsize)` of the window at step `i` holds `k`. -/
def keyInWinFrom (C : Cfg K) (slots : Nat → K) (k : K) (i j : Nat) : Bool :=
  keyInWinAux C slots k i (C.wsize - j) j

/-- First slot among `j, j+1, …` (for `m` slots) of the window at step `i`
that classifies as EMPTY. -/
def firstEmptyAux (C : Cfg K) (slots : Nat → K) (k : K) (i : Nat) :
    Nat → Nat → Option Nat
  | 0, _ => none
  | m + 1, j =>
    if readSlot C slots k i j = C.sent then some j
    else firstEmptyAux C slots k i m (j + 1)

/-- First empty slot in `[j, wsize)` of the window at step `i`, if any. -/
def firstEmptyFrom (C : Cfg K) (slots : Nat → K) (k : K) (i j : Nat) :
    Option Nat :=
  firstEmptyAux C slots k i (C.wsize - j) j

/-- Replace the operation at index `idx` (slots and counter unchanged). -/
def setOp (s : Sys K) (idx : Nat) (o : Op K) : Sys K :=
  { s with ops := s.ops.set idx o }

/-- One atomic action of the insert protocol, advancing the operation at
index `idx` (spec section 4.4).  A `scanning` action examines the remaining
window suffix jointly: if any slot holds the key the insert reports
"already present"; otherwise, if some slot is empty, the operation moves to
the CAS attempt on the first such slot; otherwise the group advances the
probe.  A `casing` action is the atomic compare-and-swap: if the slot is
still empty the key is committed and the counter incremented; if another
thread raced in the same key the insert reports "already present"; if a
different key took the slot, scanning resumes with the remaining slots of
the window. -/
def insertStep (C : Cfg K) (s : Sys K) (idx : Nat) : Sys K :=
  match s.ops.get? idx with
  | none => s
  | some o =>
    match o.st with
    | .done _ => s
    | .failed => s
    | .scanning i j =>
      if C.nwin ≤ i then setOp s idx ⟨o.key, .failed⟩
      else if keyInWinFrom C s.slots o.key i j then setOp s idx ⟨o.key, .done false⟩
      else
        match firstEmptyFrom C s.slots o.key i j with
        | some j1 => setOp s idx ⟨o.key, .casing i j1⟩
        | none => setOp s idx ⟨o.key, .scanning (i + 1) 0⟩
    | .casing i j =>
      if readSlot C s.slots o.key i j = C.sent then
        { slots := writeSlot s.slots (flatIdx C o.key i j) o.key,
          counter := s.counter + 1,
          ops := s.ops.set idx ⟨o.key, .done true⟩ }
      else if readSlot C s.slots o.key i j = o.key then
        setOp s idx ⟨o.key, .done false⟩
      else setOp s idx ⟨o.key, .scanning i (j + 1)⟩

/-- Run the system under a schedule: at each point the schedule names the
operation whose next atomic action executes.  Quantifying over schedules
ranges over all interleavings of the concurrent insert calls. -/
def run (C : Cfg K) (s : Sys K) (sched : List Nat) : Sys K :=
  sched.foldl (insertStep C) s

/-- The state in which every slot holds the sentinel (the table after
`initialize`) and the insert operations for `keys` are all about to start. -/
def initSys (C : Cfg K) (keys : List K) : Sys K :=
  { slots := fun _ => C.sent
    counter := 0
    ops := keys.map (fun k => ⟨k, .scanning 0 0⟩) }

/-- The find / contains walk (spec section 4.5): visit the probe sequence;
at each window report found if any slot equals the key, definitively absent
if any slot is empty, else advance; the caller bounds the walk to one full
cycle of windows. -/
def containsAux (C : Cfg K) (slots : Nat → K) (k : K) : Nat → Nat → Bool
  | 0, _ => false
  | fuel + 1, i =>
    if keyInWinFrom C slots k i 0 then true
    else if (firstEmptyFrom C slots k i 0).isSome then false
    else containsAux C slots k fuel (i + 1)

/-- `contains(k)` evaluated against a slot storage. -/
def containsKey (C : Cfg K) (slots : Nat → K) (k : K) : Bool :=
  containsAux C slots k C.nwin 0

/-- `size()`: the host container reads the device counter back
(`static_set.cuh`). -/
def sizeRead (s : Sys K) : Nat := s.counter

/-- Well-formedness of a probing scheme over a table of `nwin` windows: it
produces in-range window indices and, over one full cycle, visits distinct
windows (both required schemes, linear probing and double hashing with the
step forced coprime to the window count, have this property). -/
def ProbeOK (C : Cfg K) : Prop :=
  (∀ k i, C.probe k i < C.nwin) ∧
    ∀ k, ∀ i < C.nwin, ∀ i' < C.nwin, C.probe k i = C.probe k i' → i = i'

/-- Bounds carried by each operation phase. -/
def OpState.wf (n w : Nat) : OpState → Prop
  | .scanning i j => i ≤ n ∧ j ≤ w
  | .casing i j => i < n ∧ j < w
  | .done _ => True
  | .failed => True

/-- Whether an operation phase is terminal (its insert call returned). -/
def OpState.terminal : OpState → Bool
  | .done _ => true
  | .failed => true
  | _ => false

/-- Slot `j` of the window at step `i` of `k`'s sequence holds neither the
sentinel nor `k`. -/
def clearAt (C : Cfg K) (slots : Nat → K) (k : K) (i j : Nat) : Prop :=
  readSlot C slots k i j ≠ C.sent ∧ readSlot C slots k i j ≠ k

/-- Every slot of every window strictly before step `i` of `k`'s sequence
holds neither the sentinel nor `k`. -/
def clearWins (C : Cfg K) (slots : Nat → K) (k : K) (i : Nat) : Prop :=
  ∀ i' < i, ∀ j' < C.wsize, clearAt C slots k i' j'

/-- All slots strictly before position `(i, j)` (in probe order) of `k`'s
sequence hold neither the sentinel nor `k`. -/
def clearUpto (C : Cfg K) (slots : Nat → K) (k : K) (i j : Nat) : Prop :=
  clearWins C slots k i ∧ ∀ j' < j, clearAt C slots k i j'

/-- `k` sits in some window of its probe sequence, and every earlier window
of the sequence is fully occupied by other keys. -/
def placed (C : Cfg K) (slots : Nat → K) (k : K) : Prop :=
  ∃ i, i < C.nwin ∧ ∃ j, j < C.wsize ∧
    readSlot C slots k i j = k ∧ clearWins C slots k i

/-- The inductive invariant of the insert protocol. -/
structure Inv (C : Cfg K) (s : Sys K) : Prop where
  hcnt : s.counter =
    ((Finset.range (capacity C)).filter (fun q => s.slots q ≠ C.sent)).card
  hkey : ∀ o ∈ s.ops, o.key ≠ C.sent
  hwf : ∀ o ∈ s.ops, OpState.wf C.nwin C.wsize o.st
  hpend : ∀ o ∈ s.ops, ∀ i j, (o.st = .scanning i j ∨ o.st = .casing i j) →
    clearUpto C s.slots o.key i j
  hdone : ∀ o ∈ s.ops, ∀ b, o.st = .done b → placed C s.slots o.key
  hfail : ∀ o ∈ s.ops, o.st = .failed → clearWins C s.slots o.key C.nwin
  hsrc : ∀ q, q < capacity C → s.slots q ≠ C.sent →
    (∃ o ∈ s.ops, o.key = s.slots q) ∧
      ∃ i, i < C.nwin ∧ ∃ j, j < C.wsize ∧ q = flatIdx C (s.slots q) i j
  hord : ∀ k, k ≠ C.sent → ∀ i, i < C.nwin → ∀ j, j < C.wsize →
    readSlot C s.slots k i j = k →
    ∀ i' j', j' < C.wsize → (i' < i ∨ (i' = i ∧ j' < j)) →
      clearAt C s.slots k i' j'

/-- Invocation context of a probe computation: which thread runs it and at
what time.  The probing formulas (spec section 4.2) do not consult it. -/
structure ProbeCall where
  tid : Nat
  time : Nat

/-- Modelled from the spec: linear probing,
`window_index = (hash(key) + probe_index) mod num_windows`.  The invocation
context is an argument only to state that the result never depends on it. -/
def linearProbing (hash : K → Nat) (ctx : ProbeCall) (key : K)
    (i nw : Nat) : Nat :=
  (hash key + i) % nw

/-- Modelled from the spec: double hashing,
`window_index = (h1(key) + probe_index * h2(key)) mod num_windows`. -/
def doubleHashing (h1 h2 : K → Nat) (ctx : ProbeCall) (key : K)
    (i nw : Nat) : Nat :=
  (h1 key + i * h2 key) % nw

/-- The window-index sequence produced by `len` linear-probing steps. -/
def linearSeq (hash : K → Nat) (ctx : ProbeCall) (key : K)
    (nw len : Nat) : List Nat :=
  (List.range len).map (fun i => linearProbing hash ctx key i nw)

/-- The window-index sequence produced by `len` double-hashing steps. -/
def doubleSeq (h1 h2 : K → Nat) (ctx : ProbeCall) (key : K)
    (nw len : Nat) : List Nat :=
  (List.range len).map (fun i => doubleHashing h1 h2 ctx key i nw)

/-- The double-hashing window sequence over one full cycle, with the two
hash values of the key abstracted as `h1k` and `h2k`. -/
def doubleHashSeq (h1k h2k nw : Nat) : List Nat :=
  (List.range nw).map (fun i => (h1k + i * h2k) % nw)

/-- One thread of the `initialize` kernel
(`include/cuco/detail/common_kernels.cuh`): starting at `tid`, while
`tid < size`, set every slot of window `tid` to `k` and stride by the total
thread count.  The fuel argument bounds the while loop; `size` iterations
always suffice for a stride of at least one. -/
def gridStrideInit (k : K) (size stride : Nat) :
    Nat → Nat → (Nat → List K) → (Nat → List K)
  | 0, _, ws => ws
  | fuel + 1, tid, ws =>
    if tid < size then
      gridStrideInit k size stride fuel (tid + stride)
        (writeSlot ws tid ((ws tid).map (fun _ => k)))
    else ws

/-- The `initialize` kernel over a launch configuration totalling `T`
threads (thread `t` has initial `tid = t`): every thread runs the
grid-stride loop over the `size` windows.  The threads write disjoint
windows, so sequencing them is a faithful model of the parallel launch. -/
def initKernel (T : Nat) (ws : Nat → List K) (k : K) (size : Nat) :
    Nat → List K :=
  (List.range T).foldl (fun acc t => gridStrideInit k size T size t acc) ws

/-- `static_set::supports_concurrent_insert_find()`
(`include/cuco/static_set.cuh`, lines 125-129): returns
`cuco::detail::is_packable<value_type>()`.  The trait `is_packable` is
defined outside the sources, so its value for the instantiated key type is
abstracted as a Boolean argument. -/
def supports_concurrent_insert_find (is_packable_value_type : Bool) : Bool :=
  is_packable_value_type

/-- Modelled from the spec of the class (doc comment, `static_set.cuh`
lines 56-58): concurrent insert/find on the same table is allowed exactly
when `supports_concurrent_insert_find()` is true. -/
def concurrentInsertFindAllowed (is_packable_value_type : Bool) : Bool :=
  supports_concurrent_insert_find is_packable_value_type

/-- A concrete two-window, one-slot-per-window table over `Nat` keys with
sentinel `0` and linear probing, used to evaluate the theorems on explicit
executions. -/
def demoCfg : Cfg Nat :=
  { sent := 0, probe := fun k i => (k + i) % 2, nwin := 2, wsize := 1 }

/-- A concrete mid-execution state over `demoCfg`: slot `0` already holds
the committed key `5`, and an insert of key `7` is in flight. -/
def demoSys : Sys Nat :=
  { slots := fun q => if q = 0 then 5 else 0
    counter := 1
    ops := [⟨7, .scanning 0 0⟩] }

/-! ### Index arithmetic -/

theorem mulAdd_inj {a b w j j' : Nat} (hj : j < w) (hj' : j' < w)
    (h : a * w + j = b * w + j') : a = b ∧ j = j' := by
  have hw : 0 < w := Nat.lt_of_le_of_lt (Nat.zero_le j) hj
  have h1 : (a * w + j) % w = j := by rw [Nat.mul_add_mod', Nat.mod_eq_of_lt hj]
  have h2 : (b * w + j') % w = j' := by rw [Nat.mul_add_mod', Nat.mod_eq_of_lt hj']
  have h3 : (a * w + j) / w = a := by
    rw [Nat.mul_comm a w, Nat.mul_add_div hw, Nat.div_eq_of_lt hj]; omega
  have h4 : (b * w + j') / w = b := by
    rw [Nat.mul_comm b w, Nat.mul_add_div hw, Nat.div_eq_of_lt hj']; omega
  exact ⟨by rw [← h3, ← h4, h], by rw [← h1, ← h2, h]⟩

theorem flatIdx_lt {C : Cfg K} (hpo : ProbeOK C) (k : K) (i : Nat) {j : Nat}
    (hj : j < C.wsize) : flatIdx C k i j < capacity C := by
  have hp : C.probe k i < C.nwin := hpo.1 k i
  unfold flatIdx capacity
  calc C.probe k i * C.wsize + j < C.probe k i * C.wsize + C.wsize := by omega
  _ = (C.probe k i + 1) * C.wsize := by ring
  _ ≤ C.nwin * C.wsize := Nat.mul_le_mul_right C.wsize hp

theorem flatIdx_inj {C : Cfg K} (hpo : ProbeOK C) (k : K) {i j i' j' : Nat}
    (hi : i < C.nwin) (hi' : i' < C.nwin) (hj : j < C.wsize) (hj' : j' < C.wsize)
    (h : flatIdx C k i j = flatIdx C k i' j') : i = i' ∧ j = j' := by
  obtain ⟨hp, hjj⟩ := mulAdd_inj hj hj' h
  exact ⟨hpo.2 k i hi i' hi' hp, hjj⟩

/-! ### List helpers for the operation list -/

theorem get?_lt_length {α : Type} {l : List α} {i : Nat} {a : α}
    (h : l.get? i = some a) : i < l.length := by
  by_contra hc
  rw [List.get?_eq_none.mpr (Nat.le_of_not_lt hc)] at h
  exact Option.noConfusion h

theorem mem_of_mem_set {α : Type} :
    ∀ (l : List α) (i : Nat) (b x : α), x ∈ l.set i b → x ∈ l ∨ x = b := by
  intro l
  induction l with
  | nil => intro i b x hx; simp [List.set] at hx
  | cons a t ih =>
    intro i b x hx
    cases i with
    | zero =>
      rcases List.mem_cons.mp hx with h | h
      · exact Or.inr h
      · exact Or.inl (List.mem_cons_of_mem a h)
    | succ i =>
      rcases List.mem_cons.mp hx with h | h
      · exact Or.inl (h ▸ List.mem_cons_self a t)
      · rcases ih i b x h with h' | h'
        · exact Or.inl (List.mem_cons_of_mem a h')
        · exact Or.inr h'

theorem mem_set_self {α : Type} :
    ∀ (l : List α) (i : Nat) (b : α), i < l.length → b ∈ l.set i b := by
  intro l
  induction l with
  | nil => intro i b h; simp at h
  | cons a t ih =>
    intro i b h
    cases i with
    | zero => exact List.mem_cons_self b t
    | succ i => exact List.mem_cons_of_mem a (ih i b (by simpa using h))

theorem map_key_set (l : List (Op K)) (i : Nat) (o b : Op K)
    (hget : l.get? i = some o) (hk : b.key = o.key) :
    (l.set i b).map Op.key = l.map Op.key := by
  induction l generalizing i with
  | nil => exact absurd hget (by simp)
  | cons a t ih =>
    cases i with
    | zero =>
      simp only [List.get?] at hget
      cases hget
      simp [hk]
    | succ i =>
      simp only [List.get?] at hget
      simp only [List.set, List.map]
      rw [ih i hget]

theorem key_mem_of_mem {l : List (Op K)} {o : Op K} (h : o ∈ l) :
    o.key ∈ l.map Op.key := List.mem_map_of_mem Op.key h

theorem exists_key_of_map {l : List (Op K)} {k : K}
    (h : k ∈ l.map Op.key) : ∃ o ∈ l, o.key = k := List.mem_map.mp h

/-! ### Slot-write stability -/

theorem writeSlot_self {slots : Nat → K} {p : Nat} {v : K} :
    writeSlot slots p v p = v := by simp [writeSlot]

theorem writeSlot_ne {slots : Nat → K} {p q : Nat} {v : K} (h : q ≠ p) :
    writeSlot slots p v q = slots q := by simp [writeSlot, h]

theorem readSlot_write_stable {C : Cfg K} {slots : Nat → K} {p : Nat} {v : K}
    {k : K} {i j : Nat} (hp : slots p = C.sent)
    (h : readSlot C slots k i j ≠ C.sent) :
    readSlot C (writeSlot slots p v) k i j = readSlot C slots k i j := by
  have hne : flatIdx C k i j ≠ p := by
    intro he
    exact h (by rw [readSlot, he, hp])
  simp [readSlot, writeSlot, hne]

theorem clearAt_write {C : Cfg K} {slots : Nat → K} {p : Nat} {v : K}
    {k : K} {i j : Nat} (hp : slots p = C.sent)
    (h : clearAt C slots k i j) : clearAt C (writeSlot slots p v) k i j := by
  obtain ⟨h1, h2⟩ := h
  rw [clearAt, readSlot_write_stable hp h1]
  exact ⟨h1, h2⟩

theorem clearWins_write {C : Cfg K} {slots : Nat → K} {p : Nat} {v : K}
    {k : K} {i : Nat} (hp : slots p = C.sent)
    (h : clearWins C slots k i) : clearWins C (writeSlot slots p v) k i :=
  fun i' hi' j' hj' => clearAt_write hp (h i' hi' j' hj')

theorem clearUpto_write {C : Cfg K} {slots : Nat → K} {p : Nat} {v : K}
    {k : K} {i j : Nat} (hp : slots p = C.sent)
    (h : clearUpto C slots k i j) : clearUpto C (writeSlot slots p v) k i j :=
  ⟨clearWins_write hp h.1, fun j' hj' => clearAt_write hp (h.2 j' hj')⟩

theorem placed_write {C : Cfg K} {slots : Nat → K} {p : Nat} {v : K}
    {k : K} (hk : k ≠ C.sent) (hp : slots p = C.sent)
    (h : placed C slots k) : placed C (writeSlot slots p v) k := by
  obtain ⟨i, hi, j, hj, hslot, hwins⟩ := h
  refine ⟨i, hi, j, hj, ?_, clearWins_write hp hwins⟩
  rw [readSlot_write_stable hp (by rw [hslot]; exact hk), hslot]

/-! ### Window-examination specifications -/

theorem keyInWinAux_false {C : Cfg K} {slots : Nat → K} {k : K} {i : Nat} :
    ∀ {m j : Nat}, keyInWinAux C slots k i m j = false →
      ∀ j', j ≤ j' → j' < j + m →
        ¬(readSlot C slots k i j' ≠ C.sent ∧ readSlot C slots k i j' = k) := by
  intro m
  induction m with
  | zero => intro j _ j' h1 h2; omega
  | succ m ih =>
    intro j hm j' h1 h2
    rw [keyInWinAux, Bool.or_eq_false_iff] at hm
    rcases Nat.eq_or_lt_of_le h1 with he | hlt
    · subst he
      simpa using hm.1
    · exact ih hm.2 j' hlt (by omega)

theorem keyInWinAux_true {C : Cfg K} {slots : Nat → K} {k : K} {i : Nat} :
    ∀ {m j : Nat}, keyInWinAux C slots k i m j = true →
      ∃ j', j ≤ j' ∧ j' < j + m ∧
        readSlot C slots k i j' ≠ C.sent ∧ readSlot C slots k i j' = k := by
  intro m
  induction m with
  | zero => intro j h; rw [keyInWinAux] at h; exact absurd h (by simp)
  | succ m ih =>
    intro j hm
    rw [keyInWinAux, Bool.or_eq_true] at hm
    rcases hm with h | h
    · exact ⟨j, Nat.le_refl j, by omega, of_decide_eq_true h⟩
    · obtain ⟨j', h1, h2, h3⟩ := ih h
      exact ⟨j', by omega, by omega, h3⟩

theorem keyInWinAux_of_mem {C : Cfg K} {slots : Nat → K} {k : K} {i : Nat} :
    ∀ {m j : Nat}, ∀ j', j ≤ j' → j' < j + m →
      readSlot C slots k i j' ≠ C.sent → readSlot C slots k i j' = k →
      keyInWinAux C slots k i m j = true := by
  intro m
  induction m with
  | zero => intro j j' h1 h2; omega
  | succ m ih =>
    intro j j' h1 h2 h3 h4
    rw [keyInWinAux, Bool.or_eq_true]
    rcases Nat.eq_or_lt_of_le h1 with he | hlt
    · subst he
      exact Or.inl (decide_eq_true ⟨h3, h4⟩)
    · exact Or.inr (ih j' hlt (by omega) h3 h4)

theorem firstEmptyAux_some {C : Cfg K} {slots : Nat → K} {k : K} {i : Nat} :
    ∀ {m j j1 : Nat}, firstEmptyAux C slots k i m j = some j1 →
      j ≤ j1 ∧ j1 < j + m ∧ readSlot C slots k i j1 = C.sent ∧
        ∀ j', j ≤ j' → j' < j1 → readSlot C slots k i j' ≠ C.sent := by
  intro m
  induction m with
  | zero => intro j j1 h; rw [firstEmptyAux] at h; exact absurd h (by simp)
  | succ m ih =>
    intro j j1 h
    rw [firstEmptyAux] at h
    by_cases he : readSlot C slots k i j = C.sent
    · rw [if_pos he] at h
      cases h
      exact ⟨Nat.le_refl j, by omega, he, fun j' h1 h2 => by omega⟩
    · rw [if_neg he] at h
      obtain ⟨h1, h2, h3, h4⟩ := ih h
      refine ⟨by omega, by omega, h3, ?_⟩
      intro j' hj1 hj2
      rcases Nat.eq_or_lt_of_le hj1 with hq | hq
      · subst hq; exact he
      · exact h4 j' hq hj2

theorem firstEmptyAux_none {C : Cfg K} {slots : Nat → K} {k : K} {i : Nat} :
    ∀ {m j : Nat}, firstEmptyAux C slots k i m j = none →
      ∀ j', j ≤ j' → j' < j + m → readSlot C slots k i j' ≠ C.sent := by
  intro m
  induction m with
  | zero => intro j _ j' h1 h2; omega
  | succ m ih =>
    intro j h j' h1 h2
    rw [firstEmptyAux] at h
    by_cases he : readSlot C slots k i j = C.sent
    · rw [if_pos he] at h; exact Option.noConfusion h
    · rw [if_neg he] at h
      rcases Nat.eq_or_lt_of_le h1 with hq | hq
      · subst hq; exact he
      · exact ih h j' hq (by omega)

theorem keyInWinFrom_false {C : Cfg K} {slots : Nat → K} {k : K} {i j : Nat}
    (hj : j ≤ C.wsize) (h : keyInWinFrom C slots k i j = false) :
    ∀ j', j ≤ j' → j' < C.wsize →
      ¬(readSlot C slots k i j' ≠ C.sent ∧ readSlot C slots k i j' = k) := by
  intro j' h1 h2
  exact keyInWinAux_false h j' h1 (by omega)

theorem keyInWinFrom_true {C : Cfg K} {slots : Nat → K} {k : K} {i j : Nat}
    (hj : j ≤ C.wsize) (h : keyInWinFrom C slots k i j = true) :
    ∃ j', j ≤ j' ∧ j' < C.wsize ∧
      readSlot C slots k i j' ≠ C.sent ∧ readSlot C slots k i j' = k := by
  obtain ⟨j', h1, h2, h3⟩ := keyInWinAux_true h
  exact ⟨j', h1, by omega, h3⟩

theorem keyInWinFrom_of_mem {C : Cfg K} {slots : Nat → K} {k : K} {i j : Nat}
    (j' : Nat) (h1 : j ≤ j') (h2 : j' < C.wsize)
    (h3 : readSlot C slots k i j' ≠ C.sent)
    (h4 : readSlot C slots k i j' = k) :
    keyInWinFrom C slots k i j = true :=
  keyInWinAux_of_mem j' h1 (by omega) h3 h4

theorem firstEmptyFrom_some {C : Cfg K} {slots : Nat → K} {k : K}
    {i j j1 : Nat} (hj : j ≤ C.wsize)
    (h : firstEmptyFrom C slots k i j = some j1) :
    j ≤ j1 ∧ j1 < C.wsize ∧ readSlot C slots k i j1 = C.sent ∧
      ∀ j', j ≤ j' → j' < j1 → readSlot C slots k i j' ≠ C.sent := by
  obtain ⟨h1, h2, h3, h4⟩ := firstEmptyAux_some h
  exact ⟨h1, by omega, h3, h4⟩

theorem firstEmptyFrom_none {C : Cfg K} {slots : Nat → K} {k : K} {i j : Nat}
    (hj : j ≤ C.wsize) (h : firstEmptyFrom C slots k i j = none) :
    ∀ j', j ≤ j' → j' < C.wsize → readSlot C slots k i j' ≠ C.sent := by
  intro j' h1 h2
  exact firstEmptyAux_none h j' h1 (by omega)

/-! ### The invariant holds initially and is preserved by every action -/

theorem inv_init {C : Cfg K} {keys : List K}
    (hke : ∀ k ∈ keys, k ≠ C.sent) : Inv C (initSys C keys) := by
  constructor
  · have hemp : ((Finset.range (capacity C)).filter
        (fun q => (initSys C keys).slots q ≠ C.sent)) = ∅ := by
      rw [Finset.filter_eq_empty_iff]
      intro q _
      simp [initSys]
    rw [hemp]
    simp [initSys]
  · intro o ho
    obtain ⟨k, hk, rfl⟩ := List.mem_map.mp ho
    exact hke k hk
  · intro o ho
    obtain ⟨k, hk, rfl⟩ := List.mem_map.mp ho
    exact ⟨Nat.zero_le _, Nat.zero_le _⟩
  · intro o ho i j hst
    obtain ⟨k, hk, rfl⟩ := List.mem_map.mp ho
    rcases hst with h | h <;> cases h
    exact ⟨fun i' hi' => by omega, fun j' hj' => by omega⟩
  · intro o ho b hst
    obtain ⟨k, hk, rfl⟩ := List.mem_map.mp ho
    exact absurd hst (by simp)
  · intro o ho hst
    obtain ⟨k, hk, rfl⟩ := List.mem_map.mp ho
    exact absurd hst (by simp)
  · intro q _ hq
    exact absurd rfl hq
  · intro k hk i _ j _ hread
    exact absurd hread.symm hk

theorem inv_pure {C : Cfg K} {s : Sys K} {idx : Nat} {o : Op K}
    {st' : OpState} (hinv : Inv C s) (hget : s.ops.get? idx = some o)
    (hwf' : OpState.wf C.nwin C.wsize st')
    (hpend' : ∀ i j, (st' = .scanning i j ∨ st' = .casing i j) →
      clearUpto C s.slots o.key i j)
    (hdone' : ∀ b, st' = .done b → placed C s.slots o.key)
    (hfail' : st' = .failed → clearWins C s.slots o.key C.nwin) :
    Inv C (setOp s idx ⟨o.key, st'⟩) := by
  have hom : o ∈ s.ops := List.get?_mem hget
  constructor
  · exact hinv.hcnt
  · intro o' ho'
    rcases mem_of_mem_set _ _ _ _ ho' with h | h
    · exact hinv.hkey o' h
    · rw [h]
      exact hinv.hkey o hom
  · intro o' ho'
    rcases mem_of_mem_set _ _ _ _ ho' with h | h
    · exact hinv.hwf o' h
    · rw [h]
      exact hwf'
  · intro o' ho' i j hst
    rcases mem_of_mem_set _ _ _ _ ho' with h | h
    · exact hinv.hpend o' h i j hst
    · rw [h] at hst ⊢
      exact hpend' i j hst
  · intro o' ho' b hst
    rcases mem_of_mem_set _ _ _ _ ho' with h | h
    · exact hinv.hdone o' h b hst
    · rw [h] at hst ⊢
      exact hdone' b hst
  · intro o' ho' hst
    rcases mem_of_mem_set _ _ _ _ ho' with h | h
    · exact hinv.hfail o' h hst
    · rw [h] at hst ⊢
      exact hfail' hst
  · intro q hq hne
    obtain ⟨⟨w, hw, hwk⟩, hpos⟩ := hinv.hsrc q hq hne
    refine ⟨?_, hpos⟩
    have hmem : s.slots q ∈ (s.ops.set idx ⟨o.key, st'⟩).map Op.key := by
      rw [map_key_set s.ops idx o ⟨o.key, st'⟩ hget rfl]
      exact hwk ▸ key_mem_of_mem hw
    exact exists_key_of_map hmem
  · exact hinv.hord

theorem inv_write {C : Cfg K} {s : Sys K} {idx : Nat} {o : Op K} {i j : Nat}
    (hpo : ProbeOK C) (hinv : Inv C s) (hget : s.ops.get? idx = some o)
    (hst : o.st = .casing i j)
    (hsent : readSlot C s.slots o.key i j = C.sent) :
    Inv C { slots := writeSlot s.slots (flatIdx C o.key i j) o.key,
            counter := s.counter + 1,
            ops := s.ops.set idx ⟨o.key, .done true⟩ } := by
  have hom : o ∈ s.ops := List.get?_mem hget
  have hwfo := hinv.hwf o hom
  rw [hst] at hwfo
  obtain ⟨hi, hj⟩ := hwfo
  have hkey : o.key ≠ C.sent := hinv.hkey o hom
  have hup : clearUpto C s.slots o.key i j := hinv.hpend o hom i j (Or.inr hst)
  have hp_lt : flatIdx C o.key i j < capacity C := flatIdx_lt hpo o.key i hj
  have hps : s.slots (flatIdx C o.key i j) = C.sent := hsent
  constructor
  · have hfil : ((Finset.range (capacity C)).filter
        (fun q => writeSlot s.slots (flatIdx C o.key i j) o.key q ≠ C.sent)) =
        insert (flatIdx C o.key i j)
          ((Finset.range (capacity C)).filter (fun q => s.slots q ≠ C.sent)) := by
      ext q
      simp only [Finset.mem_filter, Finset.mem_insert, Finset.mem_range]
      by_cases hq : q = flatIdx C o.key i j
      · subst hq
        rw [writeSlot_self]
        constructor
        · intro _
          exact Or.inl rfl
        · intro _
          exact ⟨hp_lt, hkey⟩
      · rw [writeSlot_ne hq]
        constructor
        · intro h
          exact Or.inr h
        · intro h
          exact h.resolve_left hq
    have hnm : flatIdx C o.key i j ∉
        ((Finset.range (capacity C)).filter (fun q => s.slots q ≠ C.sent)) := by
      simp [Finset.mem_filter, hps]
    show s.counter + 1 = _
    rw [hfil, Finset.card_insert_of_not_mem hnm, hinv.hcnt]
  · intro o' ho'
    rcases mem_of_mem_set _ _ _ _ ho' with h | h
    · exact hinv.hkey o' h
    · rw [h]; exact hkey
  · intro o' ho'
    rcases mem_of_mem_set _ _ _ _ ho' with h | h
    · exact hinv.hwf o' h
    · rw [h]; exact trivial
  · intro o' ho' i' j' hst'
    rcases mem_of_mem_set _ _ _ _ ho' with h | h
    · exact clearUpto_write hps (hinv.hpend o' h i' j' hst')
    · rw [h] at hst'
      rcases hst' with h' | h' <;> exact absurd h' (by simp)
  · intro o' ho' b hst'
    rcases mem_of_mem_set _ _ _ _ ho' with h | h
    · exact placed_write (hinv.hkey o' h) hps (hinv.hdone o' h b hst')
    · rw [h]
      refine ⟨i, hi, j, hj, ?_, clearWins_write hps hup.1⟩
      show writeSlot s.slots (flatIdx C o.key i j) o.key
        (flatIdx C o.key i j) = o.key
      exact writeSlot_self
  · intro o' ho' hst'
    rcases mem_of_mem_set _ _ _ _ ho' with h | h
    · exact clearWins_write hps (hinv.hfail o' h hst')
    · rw [h] at hst'
      exact absurd hst' (by simp)
  · intro q hq hne
    by_cases hqp : q = flatIdx C o.key i j
    · subst hqp
      have hv : writeSlot s.slots (flatIdx C o.key i j) o.key
          (flatIdx C o.key i j) = o.key := writeSlot_self
      constructor
      · refine ⟨⟨o.key, .done true⟩, mem_set_self _ _ _ (get?_lt_length hget), ?_⟩
        show o.key = writeSlot s.slots (flatIdx C o.key i j) o.key
          (flatIdx C o.key i j)
        rw [hv]
      · refine ⟨i, hi, j, hj, ?_⟩
        show flatIdx C o.key i j = flatIdx C
          (writeSlot s.slots (flatIdx C o.key i j) o.key
            (flatIdx C o.key i j)) i j
        rw [hv]
    · have hv : writeSlot s.slots (flatIdx C o.key i j) o.key q = s.slots q :=
        writeSlot_ne hqp
      have hne' : s.slots q ≠ C.sent := by
        rw [← hv]
        exact hne
      obtain ⟨⟨w, hw, hwk⟩, i1, hi1, j1, hj1, hq1⟩ := hinv.hsrc q hq hne'
      constructor
      · have hmem : s.slots q ∈ (s.ops.set idx ⟨o.key, .done true⟩).map Op.key := by
          rw [map_key_set s.ops idx o ⟨o.key, .done true⟩ hget rfl]
          exact hwk ▸ key_mem_of_mem hw
        obtain ⟨o', ho', hko'⟩ := exists_key_of_map hmem
        refine ⟨o', ho', ?_⟩
        show o'.key = writeSlot s.slots (flatIdx C o.key i j) o.key q
        rw [hv, hko']
      · refine ⟨i1, hi1, j1, hj1, ?_⟩
        show q = flatIdx C (writeSlot s.slots (flatIdx C o.key i j) o.key q) i1 j1
        rw [hv]
        exact hq1
  · intro k hk i₀ hi₀ j₀ hj₀ hread i' j' hj' hbef
    by_cases hqp : flatIdx C k i₀ j₀ = flatIdx C o.key i j
    · have hkk : k = o.key := by
        have hv2 : writeSlot s.slots (flatIdx C o.key i j) o.key
            (flatIdx C k i₀ j₀) = o.key := by
          rw [hqp]
          exact writeSlot_self
        rw [← hv2]
        exact hread.symm
      subst hkk
      obtain ⟨hii, hjj⟩ := flatIdx_inj hpo o.key hi₀ hi hj₀ hj hqp
      subst hii
      subst hjj
      rcases hbef with hb | hb
      · exact clearAt_write hps (hup.1 i' hb j' hj')
      · rw [hb.1]
        exact clearAt_write hps (hup.2 j' hb.2)
    · have hread_pre : readSlot C s.slots k i₀ j₀ = k := by
        have h4 : writeSlot s.slots (flatIdx C o.key i j) o.key
            (flatIdx C k i₀ j₀) = s.slots (flatIdx C k i₀ j₀) :=
          writeSlot_ne hqp
        show s.slots (flatIdx C k i₀ j₀) = k
        rw [← h4]
        exact hread
      exact clearAt_write hps
        (hinv.hord k hk i₀ hi₀ j₀ hj₀ hread_pre i' j' hj' hbef)

theorem inv_step {C : Cfg K} (hpo : ProbeOK C) {s : Sys K} (hinv : Inv C s)
    (idx : Nat) : Inv C (insertStep C s idx) := by
  cases hget : s.ops.get? idx with
  | none =>
    have hget2 : s.ops[idx]? = none := by
      rw [← List.get?_eq_getElem?]
      exact hget
    simpa [insertStep, hget2] using hinv
  | some o =>
    have hget2 : s.ops[idx]? = some o := by
      rw [← List.get?_eq_getElem?]
      exact hget
    have hom : o ∈ s.ops := List.get?_mem hget
    cases hsto : o.st with
    | done b =>
      simp only [insertStep, List.get?_eq_getElem?, hget2, hsto]
      exact hinv
    | failed =>
      simp only [insertStep, List.get?_eq_getElem?, hget2, hsto]
      exact hinv
    | scanning i j =>
      have hwfo := hinv.hwf o hom
      rw [hsto] at hwfo
      obtain ⟨hin, hjw⟩ := hwfo
      have hup : clearUpto C s.slots o.key i j :=
        hinv.hpend o hom i j (Or.inl hsto)
      simp only [insertStep, List.get?_eq_getElem?, hget2, hsto]
      by_cases hni : C.nwin ≤ i
      · rw [if_pos hni]
        refine inv_pure hinv hget trivial ?_ ?_ ?_
        · intro i' j' h
          rcases h with h | h <;> exact absurd h (by simp)
        · intro b h
          exact absurd h (by simp)
        · intro _
          have hie : i = C.nwin := Nat.le_antisymm hin hni
          rw [← hie]
          exact hup.1
      · rw [if_neg hni]
        have hi : i < C.nwin := Nat.lt_of_not_le hni
        by_cases hkw : keyInWinFrom C s.slots o.key i j = true
        · rw [if_pos hkw]
          refine inv_pure hinv hget trivial ?_ ?_ ?_
          · intro i' j' h
            rcases h with h | h <;> exact absurd h (by simp)
          · intro b _
            obtain ⟨j', _, h2, h3, h4⟩ := keyInWinFrom_true hjw hkw
            exact ⟨i, hi, j', h2, h4, hup.1⟩
          · intro h
            exact absurd h (by simp)
        · rw [if_neg (by simpa using hkw)]
          cases hfe : firstEmptyFrom C s.slots o.key i j with
          | some j1 =>
            obtain ⟨hle, hlt, hemp, hfirst⟩ := firstEmptyFrom_some hjw hfe
            refine inv_pure hinv hget ⟨hi, hlt⟩ ?_ ?_ ?_
            · intro i' j' h
              rcases h with h | h
              · exact absurd h (by simp)
              · cases h
                refine ⟨hup.1, ?_⟩
                intro j'' hj''
                by_cases hjj : j'' < j
                · exact hup.2 j'' hjj
                · have h5 : j ≤ j'' := Nat.le_of_not_lt hjj
                  have h6 : readSlot C s.slots o.key i j'' ≠ C.sent :=
                    hfirst j'' h5 hj''
                  have h7 := keyInWinFrom_false hjw (by simpa using hkw)
                    j'' h5 (by omega)
                  exact ⟨h6, fun hc => h7 ⟨h6, hc⟩⟩
            · intro b h
              exact absurd h (by simp)
            · intro h
              exact absurd h (by simp)
          | none =>
            refine inv_pure hinv hget ⟨Nat.succ_le_of_lt hi, Nat.zero_le _⟩
              ?_ ?_ ?_
            · intro i' j' h
              rcases h with h | h
              · cases h
                refine ⟨?_, fun j'' hj'' => by omega⟩
                intro i'' hi'' j'' hj''
                by_cases hii : i'' < i
                · exact hup.1 i'' hii j'' hj''
                · have hie : i'' = i := by omega
                  subst hie
                  by_cases hjj : j'' < j
                  · exact hup.2 j'' hjj
                  · have h5 : j ≤ j'' := Nat.le_of_not_lt hjj
                    have h6 : readSlot C s.slots o.key i'' j'' ≠ C.sent :=
                      firstEmptyFrom_none hjw hfe j'' h5 hj''
                    have h7 := keyInWinFrom_false hjw (by simpa using hkw)
                      j'' h5 hj''
                    exact ⟨h6, fun hc => h7 ⟨h6, hc⟩⟩
              · exact absurd h (by simp)
            · intro b h
              exact absurd h (by simp)
            · intro h
              exact absurd h (by simp)
    | casing i j =>
      have hwfo := hinv.hwf o hom
      rw [hsto] at hwfo
      obtain ⟨hi, hj⟩ := hwfo
      have hup : clearUpto C s.slots o.key i j :=
        hinv.hpend o hom i j (Or.inr hsto)
      simp only [insertStep, List.get?_eq_getElem?, hget2, hsto]
      by_cases hse : readSlot C s.slots o.key i j = C.sent
      · rw [if_pos hse]
        exact inv_write hpo hinv hget hsto hse
      · rw [if_neg hse]
        by_cases heq : readSlot C s.slots o.key i j = o.key
        · rw [if_pos heq]
          refine inv_pure hinv hget trivial ?_ ?_ ?_
          · intro i' j' h
            rcases h with h | h <;> exact absurd h (by simp)
          · intro b _
            exact ⟨i, hi, j, hj, heq, hup.1⟩
          · intro h
            exact absurd h (by simp)
        · rw [if_neg heq]
          refine inv_pure hinv hget ⟨Nat.le_of_lt hi, hj⟩ ?_ ?_ ?_
          · intro i' j' h
            rcases h with h | h
            · cases h
              refine ⟨hup.1, ?_⟩
              intro j'' hj''
              by_cases hjj : j'' < j
              · exact hup.2 j'' hjj
              · have hje : j'' = j := by omega
                subst hje
                exact ⟨hse, heq⟩
            · exact absurd h (by simp)
          · intro b h
            exact absurd h (by simp)
          · intro h
            exact absurd h (by simp)

theorem inv_run {C : Cfg K} (hpo : ProbeOK C) {s : Sys K} (hinv : Inv C s) :
    ∀ sched : List Nat, Inv C (run C s sched) := by
  intro sched
  induction sched generalizing s with
  | nil => exact hinv
  | cons a t ih => exact ih (inv_step hpo hinv a)

theorem step_map_key (C : Cfg K) (s : Sys K) (idx : Nat) :
    (insertStep C s idx).ops.map Op.key = s.ops.map Op.key := by
  cases hget : s.ops.get? idx with
  | none =>
    have hget2 : s.ops[idx]? = none := by
      rw [← List.get?_eq_getElem?]
      exact hget
    simp [insertStep, List.get?_eq_getElem?, hget2]
  | some o =>
    have hget2 : s.ops[idx]? = some o := by
      rw [← List.get?_eq_getElem?]
      exact hget
    cases hsto : o.st with
    | done b => simp [insertStep, List.get?_eq_getElem?, hget2, hsto]
    | failed => simp [insertStep, List.get?_eq_getElem?, hget2, hsto]
    | scanning i j =>
      simp only [insertStep, List.get?_eq_getElem?, hget2, hsto]
      by_cases h1 : C.nwin ≤ i
      · rw [if_pos h1]
        exact map_key_set s.ops idx o _ hget rfl
      · rw [if_neg h1]
        by_cases h2 : keyInWinFrom C s.slots o.key i j = true
        · rw [if_pos h2]
          exact map_key_set s.ops idx o _ hget rfl
        · rw [if_neg (by simpa using h2)]
          cases hfe : firstEmptyFrom C s.slots o.key i j with
          | some j1 => exact map_key_set s.ops idx o _ hget rfl
          | none => exact map_key_set s.ops idx o _ hget rfl
    | casing i j =>
      simp only [insertStep, List.get?_eq_getElem?, hget2, hsto]
      by_cases h1 : readSlot C s.slots o.key i j = C.sent
      · rw [if_pos h1]
        exact map_key_set s.ops idx o _ hget rfl
      · rw [if_neg h1]
        by_cases h2 : readSlot C s.slots o.key i j = o.key
        · rw [if_pos h2]
          exact map_key_set s.ops idx o _ hget rfl
        · rw [if_neg h2]
          exact map_key_set s.ops idx o _ hget rfl

theorem run_map_key (C : Cfg K) (s : Sys K) (sched : List Nat) :
    (run C s sched).ops.map Op.key = s.ops.map Op.key := by
  induction sched generalizing s with
  | nil => rfl
  | cons a t ih =>
    show (run C (insertStep C s a) t).ops.map Op.key = _
    rw [ih, step_map_key]

theorem keys_pred_run {C : Cfg K} {s : Sys K} {P : K → Prop}
    (h : ∀ o ∈ s.ops, P o.key) (sched : List Nat) :
    ∀ o' ∈ (run C s sched).ops, P o'.key := by
  intro o' ho'
  have h1 : o'.key ∈ (run C s sched).ops.map Op.key := key_mem_of_mem ho'
  rw [run_map_key] at h1
  obtain ⟨w, hw, hwk⟩ := exists_key_of_map h1
  exact hwk ▸ h w hw

theorem step_slot_mono (C : Cfg K) {s : Sys K}
    (hke : ∀ o ∈ s.ops, o.key ≠ C.sent) (idx q : Nat) :
    (insertStep C s idx).slots q = s.slots q ∨
      (s.slots q = C.sent ∧ (insertStep C s idx).slots q ≠ C.sent) := by
  cases hget : s.ops.get? idx with
  | none =>
    have hget2 : s.ops[idx]? = none := by
      rw [← List.get?_eq_getElem?]
      exact hget
    left
    simp [insertStep, List.get?_eq_getElem?, hget2]
  | some o =>
    have hget2 : s.ops[idx]? = some o := by
      rw [← List.get?_eq_getElem?]
      exact hget
    have hkey : o.key ≠ C.sent := hke o (List.get?_mem hget)
    cases hsto : o.st with
    | done b =>
      left
      simp [insertStep, List.get?_eq_getElem?, hget2, hsto]
    | failed =>
      left
      simp [insertStep, List.get?_eq_getElem?, hget2, hsto]
    | scanning i j =>
      left
      simp only [insertStep, List.get?_eq_getElem?, hget2, hsto]
      by_cases h1 : C.nwin ≤ i
      · rw [if_pos h1]
        rfl
      · rw [if_neg h1]
        by_cases h2 : keyInWinFrom C s.slots o.key i j = true
        · rw [if_pos h2]
          rfl
        · rw [if_neg (by simpa using h2)]
          cases hfe : firstEmptyFrom C s.slots o.key i j with
          | some j1 => rfl
          | none => rfl
    | casing i j =>
      simp only [insertStep, List.get?_eq_getElem?, hget2, hsto]
      by_cases h1 : readSlot C s.slots o.key i j = C.sent
      · rw [if_pos h1]
        by_cases hqp : q = flatIdx C o.key i j
        · subst hqp
          right
          refine ⟨h1, ?_⟩
          show writeSlot s.slots (flatIdx C o.key i j) o.key
            (flatIdx C o.key i j) ≠ C.sent
          rw [writeSlot_self]
          exact hkey
        · left
          exact writeSlot_ne hqp
      · rw [if_neg h1]
        by_cases h2 : readSlot C s.slots o.key i j = o.key
        · rw [if_pos h2]
          left
          rfl
        · rw [if_neg h2]
          left
          rfl

theorem run_slot_mono (C : Cfg K) {s : Sys K}
    (hke : ∀ o ∈ s.ops, o.key ≠ C.sent) (sched : List Nat) (q : Nat) :
    (run C s sched).slots q = s.slots q ∨
      (s.slots q = C.sent ∧ (run C s sched).slots q ≠ C.sent) := by
  induction sched generalizing s with
  | nil => exact Or.inl rfl
  | cons a t ih =>
    have hke' : ∀ o ∈ (insertStep C s a).ops, o.key ≠ C.sent := by
      intro o' ho'
      have h1 : o'.key ∈ (insertStep C s a).ops.map Op.key :=
        key_mem_of_mem ho'
      rw [step_map_key] at h1
      obtain ⟨w, hw, hwk⟩ := exists_key_of_map h1
      exact hwk ▸ hke w hw
    have hs : run C s (a :: t) = run C (insertStep C s a) t := rfl
    rw [hs]
    rcases ih hke' with h | h
    · rw [h]
      exact step_slot_mono C hke a q
    · rcases step_slot_mono C hke a q with h2 | h2
      · rw [h2] at h
        exact Or.inr h
      · exact Or.inr ⟨h2.1, h.2⟩

/-! ### The contains walk: found and definitively-absent outcomes -/

theorem containsAux_true {C : Cfg K} {slots : Nat → K} {k : K}
    (hk : k ≠ C.sent) :
    ∀ {fuel i i₀ : Nat}, i ≤ i₀ → i₀ < i + fuel →
      (∃ j, j < C.wsize ∧ readSlot C slots k i₀ j = k) →
      (∀ i', i ≤ i' → i' < i₀ → ∀ j' < C.wsize, clearAt C slots k i' j') →
      containsAux C slots k fuel i = true := by
  intro fuel
  induction fuel with
  | zero => intro i i₀ h1 h2; omega
  | succ fuel ih =>
    intro i i₀ h1 h2 hhit hclear
    by_cases hie : i₀ = i
    · subst hie
      obtain ⟨j, hj, hread⟩ := hhit
      have hkw : keyInWinFrom C slots k i₀ 0 = true :=
        keyInWinFrom_of_mem j (Nat.zero_le j) hj (by rw [hread]; exact hk) hread
      simp only [containsAux]
      rw [if_pos hkw]
    · have hlt : i < i₀ := Nat.lt_of_le_of_ne h1 (fun h => hie h.symm)
      simp only [containsAux]
      by_cases hkw : keyInWinFrom C slots k i 0 = true
      · rw [if_pos hkw]
      · rw [if_neg (by simpa using hkw)]
        cases hfe : firstEmptyFrom C slots k i 0 with
        | some j1 =>
          obtain ⟨_, hj1, hemp, _⟩ := firstEmptyFrom_some (Nat.zero_le _) hfe
          have := hclear i (Nat.le_refl i) hlt j1 hj1
          exact absurd hemp this.1
        | none =>
          simp only [Option.isSome_none, Bool.false_eq_true, if_false]
          exact ih hlt (by omega) hhit
            (fun i' hi1 hi2 j' hj' => hclear i' (by omega) hi2 j' hj')

theorem containsAux_false {C : Cfg K} {slots : Nat → K} {k : K} :
    ∀ {fuel i : Nat},
      (∀ i', i ≤ i' → i' < i + fuel → ∀ j < C.wsize,
        ¬(readSlot C slots k i' j ≠ C.sent ∧ readSlot C slots k i' j = k)) →
      containsAux C slots k fuel i = false := by
  intro fuel
  induction fuel with
  | zero => intro i _; rfl
  | succ fuel ih =>
    intro i habs
    have hkw : keyInWinFrom C slots k i 0 = false := by
      by_contra hc
      have hc' : keyInWinFrom C slots k i 0 = true := by
        revert hc
        cases keyInWinFrom C slots k i 0 <;> simp
      obtain ⟨j', _, hj', h3, h4⟩ := keyInWinFrom_true (Nat.zero_le _) hc'
      exact habs i (Nat.le_refl i) (by omega) j' hj' ⟨h3, h4⟩
    simp only [containsAux]
    rw [if_neg (by simp [hkw])]
    by_cases hfe : (firstEmptyFrom C slots k i 0).isSome = true
    · rw [if_pos hfe]
    · rw [if_neg hfe]
      exact ih (fun i' h1 h2 j hj => habs i' (by omega) (by omega) j hj)

theorem contains_of_placed {C : Cfg K} {slots : Nat → K} {k : K}
    (hk : k ≠ C.sent) (hp : placed C slots k) :
    containsKey C slots k = true := by
  obtain ⟨i₀, hi₀, j, hj, hread, hwins⟩ := hp
  exact containsAux_true hk (Nat.zero_le i₀) (by omega) ⟨j, hj, hread⟩
    (fun i' _ hi' j' hj' => hwins i' hi' j' hj')

theorem contains_of_absent {C : Cfg K} {slots : Nat → K} {k : K}
    (h : ∀ i < C.nwin, ∀ j < C.wsize,
      ¬(readSlot C slots k i j ≠ C.sent ∧ readSlot C slots k i j = k)) :
    containsKey C slots k = false :=
  containsAux_false (fun i' _ h2 j hj => h i' (by omega) j hj)

/-! ### Uniqueness of a key's slot, and the counting argument -/

theorem slot_unique {C : Cfg K} (hpo : ProbeOK C) {s : Sys K}
    (hinv : Inv C s) {k : K} (hk : k ≠ C.sent) {q1 q2 : Nat}
    (h1 : q1 < capacity C) (h2 : q2 < capacity C)
    (hs1 : s.slots q1 = k) (hs2 : s.slots q2 = k) : q1 = q2 := by
  have hne1 : s.slots q1 ≠ C.sent := by rw [hs1]; exact hk
  have hne2 : s.slots q2 ≠ C.sent := by rw [hs2]; exact hk
  obtain ⟨_, i1, hi1, j1, hj1, hq1⟩ := hinv.hsrc q1 h1 hne1
  obtain ⟨_, i2, hi2, j2, hj2, hq2⟩ := hinv.hsrc q2 h2 hne2
  rw [hs1] at hq1
  rw [hs2] at hq2
  have hr1 : readSlot C s.slots k i1 j1 = k := by
    show s.slots (flatIdx C k i1 j1) = k
    rw [← hq1]
    exact hs1
  have hr2 : readSlot C s.slots k i2 j2 = k := by
    show s.slots (flatIdx C k i2 j2) = k
    rw [← hq2]
    exact hs2
  have htri : (i1 < i2 ∨ (i1 = i2 ∧ j1 < j2)) ∨
      (i2 < i1 ∨ (i2 = i1 ∧ j2 < j1)) ∨ (i1 = i2 ∧ j1 = j2) := by omega
  rcases htri with hb | hb | hb
  · exact absurd hr1 (hinv.hord k hk i2 hi2 j2 hj2 hr2 i1 j1 hj1 hb).2
  · exact absurd hr2 (hinv.hord k hk i1 hi1 j1 hj1 hr1 i2 j2 hj2 hb).2
  · rw [hq1, hq2, hb.1, hb.2]

theorem probe_surj {C : Cfg K} (hpo : ProbeOK C) (k : K) {w : Nat}
    (hw : w < C.nwin) : ∃ i, i < C.nwin ∧ C.probe k i = w := by
  have himg : Finset.image (fun i => C.probe k i) (Finset.range C.nwin) =
      Finset.range C.nwin := by
    apply Finset.eq_of_subset_of_card_le
    · intro x hx
      obtain ⟨i, _, hi2⟩ := Finset.mem_image.mp hx
      exact Finset.mem_range.mpr (hi2 ▸ hpo.1 k i)
    · rw [Finset.card_image_of_injOn]
      intro a ha b hb hab
      exact hpo.2 k a (Finset.mem_range.mp (Finset.mem_coe.mp ha))
        b (Finset.mem_range.mp (Finset.mem_coe.mp hb)) hab
  have hmem : w ∈ Finset.image (fun i => C.probe k i) (Finset.range C.nwin) := by
    rw [himg]
    exact Finset.mem_range.mpr hw
  obtain ⟨i, hi, hpi⟩ := Finset.mem_image.mp hmem
  exact ⟨i, Finset.mem_range.mp hi, hpi⟩

theorem no_fail {C : Cfg K} (hpo : ProbeOK C) {s : Sys K} (hinv : Inv C s)
    (hcap : ((s.ops.map Op.key).toFinset).card ≤ capacity C)
    {o : Op K} (ho : o ∈ s.ops) : o.st ≠ .failed := by
  intro hfl
  have hwins := hinv.hfail o ho hfl
  have hall : ∀ q, q < capacity C →
      s.slots q ≠ C.sent ∧ s.slots q ≠ o.key := by
    intro q hq
    have hw0 : 0 < C.wsize := by
      rcases Nat.eq_zero_or_pos C.wsize with h0 | h0
      · rw [capacity, h0, Nat.mul_zero] at hq
        omega
      · exact h0
    have hwlt : q / C.wsize < C.nwin := by
      rw [Nat.div_lt_iff_lt_mul hw0]
      exact hq
    obtain ⟨i, hi, hpi⟩ := probe_surj hpo o.key hwlt
    have hflat : flatIdx C o.key i (q % C.wsize) = q := by
      rw [flatIdx, hpi, Nat.mul_comm]
      exact Nat.div_add_mod q C.wsize
    have hclear := hwins i hi (q % C.wsize) (Nat.mod_lt q hw0)
    rw [clearAt, readSlot, hflat] at hclear
    exact hclear
  have hinj_le : (Finset.range (capacity C)).card ≤
      ((s.ops.map Op.key).toFinset.erase o.key).card := by
    apply Finset.card_le_card_of_injOn (fun q => s.slots q)
    · intro q hq
      have hq' : q < capacity C := Finset.mem_range.mp hq
      obtain ⟨hne, hnk⟩ := hall q hq'
      obtain ⟨⟨w, hw, hwk⟩, _⟩ := hinv.hsrc q hq' hne
      refine Finset.mem_erase.mpr ⟨hnk, ?_⟩
      exact List.mem_toFinset.mpr (hwk ▸ key_mem_of_mem hw)
    · intro q1 hq1 q2 hq2 heq
      have hq1' : q1 < capacity C := Finset.mem_range.mp (Finset.mem_coe.mp hq1)
      have hq2' : q2 < capacity C := Finset.mem_range.mp (Finset.mem_coe.mp hq2)
      exact slot_unique hpo hinv (hall q1 hq1').1 hq1' hq2' rfl heq.symm
  have hmem_key : o.key ∈ (s.ops.map Op.key).toFinset :=
    List.mem_toFinset.mpr (key_mem_of_mem ho)
  rw [Finset.card_range, Finset.card_erase_of_mem hmem_key] at hinj_le
  have hpos : 0 < (s.ops.map Op.key).toFinset.card :=
    Finset.card_pos.mpr ⟨o.key, hmem_key⟩
  omega

theorem counter_eq_card {C : Cfg K} (hpo : ProbeOK C) {s : Sys K}
    (hinv : Inv C s)
    (hplaced : ∀ k ∈ (s.ops.map Op.key).toFinset, placed C s.slots k) :
    s.counter = (s.ops.map Op.key).toFinset.card := by
  rw [hinv.hcnt]
  apply Finset.card_bij (fun q _ => s.slots q)
  · intro q hq
    obtain ⟨hqr, hne⟩ := Finset.mem_filter.mp hq
    obtain ⟨⟨w, hw, hwk⟩, _⟩ :=
      hinv.hsrc q (Finset.mem_range.mp hqr) hne
    exact List.mem_toFinset.mpr (hwk ▸ key_mem_of_mem hw)
  · intro q1 hq1 q2 hq2 heq
    obtain ⟨hr1, hne1⟩ := Finset.mem_filter.mp hq1
    obtain ⟨hr2, hne2⟩ := Finset.mem_filter.mp hq2
    exact slot_unique hpo hinv hne1 (Finset.mem_range.mp hr1)
      (Finset.mem_range.mp hr2) rfl heq.symm
  · intro k hk
    obtain ⟨i, hi, j, hj, hread, _⟩ := hplaced k hk
    have hkne : k ≠ C.sent := by
      obtain ⟨w, hw, hwk⟩ := exists_key_of_map (List.mem_toFinset.mp hk)
      exact hwk ▸ hinv.hkey w hw
    refine ⟨flatIdx C k i j, Finset.mem_filter.mpr
      ⟨Finset.mem_range.mpr (flatIdx_lt hpo k i hj), ?_⟩, hread⟩
    show s.slots (flatIdx C k i j) ≠ C.sent
    have : s.slots (flatIdx C k i j) = k := hread
    rw [this]
    exact hkne

theorem terminal_cases {st : OpState} (h : OpState.terminal st = true) :
    (∃ b, st = .done b) ∨ st = .failed := by
  cases st with
  | done b => exact Or.inl ⟨b, rfl⟩
  | failed => exact Or.inr rfl
  | scanning i j => exact absurd h (by simp [OpState.terminal])
  | casing i j => exact absurd h (by simp [OpState.terminal])

theorem initSys_map_key (C : Cfg K) (keys : List K) :
    (initSys C keys).ops.map Op.key = keys := by
  show (keys.map (fun k => (⟨k, .scanning 0 0⟩ : Op K))).map Op.key = keys
  rw [List.map_map]
  exact List.map_id keys

theorem all_placed {C : Cfg K} (hpo : ProbeOK C) {s : Sys K} (hinv : Inv C s)
    (hcap : (s.ops.map Op.key).toFinset.card ≤ capacity C)
    (hterm : ∀ o ∈ s.ops, OpState.terminal o.st = true) :
    ∀ k ∈ (s.ops.map Op.key).toFinset, placed C s.slots k := by
  intro k hk
  obtain ⟨o, ho, hok⟩ := exists_key_of_map (List.mem_toFinset.mp hk)
  rcases terminal_cases (hterm o ho) with ⟨b, hb⟩ | hb
  · exact hok ▸ hinv.hdone o ho b hb
  · exact absurd hb (no_fail hpo hinv hcap ho)

/-! ### The claims -/

/-- C1.  No false negatives: in any interleaved execution starting from an
initialized table, if an insert operation for key `k` has completed (its
call returned, so any happens-before ordering with a later query is
satisfied), then `contains(k)` evaluated on the resulting table reports
true. -/
theorem no_false_negatives {C : Cfg K} (hpo : ProbeOK C) (keys : List K)
    (hke : ∀ k ∈ keys, k ≠ C.sent) (sched : List Nat) (idx : Nat)
    (o : Op K) (b : Bool)
    (hget : (run C (initSys C keys) sched).ops.get? idx = some o)
    (hst : o.st = .done b) :
    containsKey C (run C (initSys C keys) sched).slots o.key = true := by
  have hinv := inv_run hpo (inv_init hke) sched
  have hom := List.get?_mem hget
  exact contains_of_placed (hinv.hkey o hom) (hinv.hdone o hom b hst)

/-- C2.  No false positives: in any reachable table state (any interleaving
of inserts of keys other than `k`), `contains(k)` reports false. -/
theorem no_false_positives {C : Cfg K} (hpo : ProbeOK C) (keys : List K)
    (hke : ∀ k' ∈ keys, k' ≠ C.sent) (sched : List Nat) (k : K)
    (hnot : ∀ k' ∈ keys, k' ≠ k) :
    containsKey C (run C (initSys C keys) sched).slots k = false := by
  have hinv := inv_run hpo (inv_init hke) sched
  apply contains_of_absent
  intro i hi j hj hcon
  obtain ⟨hne, heq⟩ := hcon
  have hq : flatIdx C k i j < capacity C := flatIdx_lt hpo k i hj
  obtain ⟨⟨w, hw, hwk⟩, _⟩ :=
    hinv.hsrc (flatIdx C k i j) hq hne
  have hwkeys : w.key ∈ (run C (initSys C keys) sched).ops.map Op.key :=
    key_mem_of_mem hw
  rw [run_map_key, initSys_map_key] at hwkeys
  apply hnot w.key hwkeys
  rw [hwk]
  exact heq

/-- C3.  Idempotence of insert: starting from an initialized table, any
interleaved execution of `N ≥ 1` insert operations all for the same key `k`
that runs every operation to completion leaves `size() = 1` (its value after
the first successful insert) and exactly one physical slot holding `k`. -/
theorem insert_idempotent {C : Cfg K} (hpo : ProbeOK C) (k : K)
    (hk : k ≠ C.sent) (N : Nat) (hN : 0 < N) (hcap : 0 < capacity C)
    (sched : List Nat)
    (hterm : ∀ o ∈ (run C (initSys C (List.replicate N k)) sched).ops,
      OpState.terminal o.st = true) :
    sizeRead (run C (initSys C (List.replicate N k)) sched) = 1 ∧
      ((Finset.range (capacity C)).filter
        (fun q => (run C (initSys C (List.replicate N k)) sched).slots q = k)).card
        = 1 := by
  have hke : ∀ k' ∈ List.replicate N k, k' ≠ C.sent := by
    intro k' h
    rw [List.eq_of_mem_replicate h]
    exact hk
  have hinv := inv_run hpo (inv_init hke) sched
  have hmapk : (run C (initSys C (List.replicate N k)) sched).ops.map Op.key
      = List.replicate N k := by
    rw [run_map_key, initSys_map_key]
  have htof : ((run C (initSys C (List.replicate N k)) sched).ops.map
      Op.key).toFinset = {k} := by
    rw [hmapk]
    ext x
    simp [List.mem_replicate]
    omega
  have hcard : ((run C (initSys C (List.replicate N k)) sched).ops.map
      Op.key).toFinset.card ≤ capacity C := by
    rw [htof, Finset.card_singleton]
    omega
  have hplaced := all_placed hpo hinv hcard hterm
  constructor
  · have h1 := counter_eq_card hpo hinv hplaced
    rw [sizeRead, h1, htof, Finset.card_singleton]
  · have hpk : placed C (run C (initSys C (List.replicate N k)) sched).slots k := by
      apply hplaced
      rw [htof]
      exact Finset.mem_singleton_self k
    obtain ⟨i, hi, j, hj, hread, _⟩ := hpk
    apply Nat.le_antisymm
    · apply Finset.card_le_one.mpr
      intro q1 hq1 q2 hq2
      obtain ⟨hr1, he1⟩ := Finset.mem_filter.mp hq1
      obtain ⟨hr2, he2⟩ := Finset.mem_filter.mp hq2
      exact slot_unique hpo hinv hk (Finset.mem_range.mp hr1)
        (Finset.mem_range.mp hr2) he1 he2
    · apply Finset.card_pos.mpr
      refine ⟨flatIdx C k i j, Finset.mem_filter.mpr
        ⟨Finset.mem_range.mpr (flatIdx_lt hpo k i hj), hread⟩⟩

/-- C4.  Conservation of count: any interleaved execution that starts from
an initialized table, inserts a collection of keys whose distinct count `M`
is at most the capacity (none equal to the sentinel), and runs every insert
to completion ends with `size() = M` exactly. -/
theorem insert_conservation {C : Cfg K} (hpo : ProbeOK C) (keys : List K)
    (hke : ∀ k ∈ keys, k ≠ C.sent)
    (hcap : keys.toFinset.card ≤ capacity C) (sched : List Nat)
    (hterm : ∀ o ∈ (run C (initSys C keys) sched).ops,
      OpState.terminal o.st = true) :
    sizeRead (run C (initSys C keys) sched) = keys.toFinset.card := by
  have hinv := inv_run hpo (inv_init hke) sched
  have hmapk : (run C (initSys C keys) sched).ops.map Op.key = keys := by
    rw [run_map_key, initSys_map_key]
  have hcard : ((run C (initSys C keys) sched).ops.map Op.key).toFinset.card
      ≤ capacity C := by
    rw [hmapk]
    exact hcap
  have h1 := counter_eq_card hpo hinv (all_placed hpo hinv hcard hterm)
  rw [sizeRead, h1, hmapk]

/-- C6.  Early-termination soundness: in any reachable state, if the window
at step `i` of `k`'s probe sequence has an empty slot, then no window at a
later step `i'` of the same sequence holds `k`; hence a find may declare
`k` absent upon seeing an empty slot. -/
theorem empty_slot_sound {C : Cfg K} (hpo : ProbeOK C) (keys : List K)
    (hke : ∀ k' ∈ keys, k' ≠ C.sent) (sched : List Nat) (k : K)
    (hk : k ≠ C.sent) (i j i' j' : Nat) (hi : i < C.nwin) (hj : j < C.wsize)
    (hii : i < i') (hi' : i' < C.nwin) (hj' : j' < C.wsize)
    (hemp : readSlot C (run C (initSys C keys) sched).slots k i j = C.sent) :
    readSlot C (run C (initSys C keys) sched).slots k i' j' ≠ k := by
  intro hocc
  have hinv := inv_run hpo (inv_init hke) sched
  exact (hinv.hord k hk i' hi' j' hj' hocc i j hj (Or.inl hii)).1 hemp

/-- C7.  Slot transitions are never undone: across any further execution of
insert actions (the only state-mutating operation; contains, size, capacity
and reference recasts are read-only), a slot that holds a committed
non-sentinel key keeps exactly that key, and no action ever writes the
sentinel into any slot. -/
theorem slot_commit_permanent {C : Cfg K} (s : Sys K)
    (hke : ∀ o ∈ s.ops, o.key ≠ C.sent) (sched : List Nat) :
    (∀ q, s.slots q ≠ C.sent → (run C s sched).slots q = s.slots q) ∧
      (∀ q, (run C s sched).slots q = C.sent → s.slots q = C.sent) := by
  constructor
  · intro q hq
    rcases run_slot_mono C hke sched q with h | h
    · exact h
    · exact absurd h.1 hq
  · intro q hq
    rcases run_slot_mono C hke sched q with h | h
    · rw [← h]
      exact hq
    · exact absurd hq h.2

/-- C5.  Determinism of the probing scheme: two invocations of either
probing scheme by different threads at different times (different
invocation contexts) produce identical window-index sequences; the schemes
are pure functions of (key, probe index, window count). -/
theorem probe_deterministic (hash ha hb : K → Nat) :
    ∀ (ctx1 ctx2 : ProbeCall) (key : K) (nw len : Nat),
      linearSeq hash ctx1 key nw len = linearSeq hash ctx2 key nw len ∧
        doubleSeq ha hb ctx1 key nw len = doubleSeq ha hb ctx2 key nw len :=
  fun _ _ _ _ _ => ⟨rfl, rfl⟩

/-! ### The initialize kernel (C8) -/

theorem gridStrideInit_untouched {k : K} {size stride : Nat} :
    ∀ {fuel tid : Nat} {ws : Nat → List K} {i : Nat},
      (¬∃ m, i = tid + m * stride ∧ i < size) →
      gridStrideInit k size stride fuel tid ws i = ws i := by
  intro fuel
  induction fuel with
  | zero => intro tid ws i _; rfl
  | succ fuel ih =>
    intro tid ws i hni
    simp only [gridStrideInit]
    by_cases ht : tid < size
    · rw [if_pos ht]
      have hit : i ≠ tid := by
        intro he
        exact hni ⟨0, by omega, by omega⟩
      rw [ih ?_]
      · exact writeSlot_ne hit
      · intro hex
        obtain ⟨m, hm1, hm2⟩ := hex
        apply hni
        refine ⟨m + 1, ?_, hm2⟩
        rw [Nat.succ_mul]
        omega
    · rw [if_neg ht]

theorem gridStrideInit_mem {k : K} {size stride : Nat} :
    ∀ {fuel tid : Nat} {ws : Nat → List K} {i : Nat} {x : K},
      x ∈ (gridStrideInit k size stride fuel tid ws) i → x ∈ ws i ∨ x = k := by
  intro fuel
  induction fuel with
  | zero => intro tid ws i x hx; exact Or.inl hx
  | succ fuel ih =>
    intro tid ws i x hx
    simp only [gridStrideInit] at hx
    by_cases ht : tid < size
    · rw [if_pos ht] at hx
      rcases ih hx with h | h
      · by_cases hit : i = tid
        · subst hit
          rw [writeSlot_self] at h
          obtain ⟨a, _, ha⟩ := List.mem_map.mp h
          exact Or.inr ha.symm
        · rw [writeSlot_ne hit] at h
          exact Or.inl h
      · exact Or.inr h
    · rw [if_neg ht] at hx
      exact Or.inl hx

theorem gridStrideInit_covered {k : K} {size stride : Nat}
    (hs : 1 ≤ stride) :
    ∀ {fuel tid m : Nat} {ws : Nat → List K},
      tid + m * stride < size → size - tid ≤ fuel →
      ∀ x ∈ (gridStrideInit k size stride fuel tid ws) (tid + m * stride),
        x = k := by
  intro fuel
  induction fuel with
  | zero =>
    intro tid m ws hlt hfuel x _
    omega
  | succ fuel ih =>
    intro tid m ws hlt hfuel x hx
    have ht : tid < size := by omega
    simp only [gridStrideInit] at hx
    rw [if_pos ht] at hx
    cases m with
    | zero =>
      have h0 : tid + 0 * stride = tid := by omega
      rw [h0] at hx
      rw [gridStrideInit_untouched ?_] at hx
      · rw [writeSlot_self] at hx
        obtain ⟨a, _, ha⟩ := List.mem_map.mp hx
        exact ha.symm
      · intro hex
        obtain ⟨m', hm', _⟩ := hex
        omega
    | succ m =>
      have hpos : tid + (m + 1) * stride = (tid + stride) + m * stride := by
        rw [Nat.succ_mul]
        omega
      rw [hpos] at hx hlt
      exact ih hlt (by omega) x hx

theorem initFold_mem {k : K} {size T : Nat} :
    ∀ (ts : List Nat) (ws : Nat → List K) (i : Nat) (x : K),
      x ∈ (ts.foldl (fun acc t => gridStrideInit k size T size t acc) ws) i →
        x ∈ ws i ∨ x = k := by
  intro ts
  induction ts with
  | nil => intro ws i x hx; exact Or.inl hx
  | cons t ts ih =>
    intro ws i x hx
    rcases ih _ i x hx with h | h
    · exact gridStrideInit_mem h
    · exact Or.inr h

theorem initFold_covered {k : K} {size T : Nat} (hT : 1 ≤ T) :
    ∀ (ts : List Nat) (ws : Nat → List K) (i : Nat), i < size →
      i % T ∈ ts →
      ∀ x ∈ (ts.foldl (fun acc t => gridStrideInit k size T size t acc) ws) i,
        x = k := by
  intro ts
  induction ts with
  | nil => intro ws i _ hmem; exact absurd hmem (by simp)
  | cons t ts ih =>
    intro ws i hi hmem x hx
    rcases List.mem_cons.mp hmem with hm | hm
    · rcases initFold_mem ts _ i x hx with h | h
      · have hidx : t + (i / T) * T = i := by
          rw [← hm]
          exact Nat.mod_add_div' i T
        rw [← hidx] at h hi
        exact gridStrideInit_covered hT hi (by omega) x h
      · exact h
    · exact ih _ i hi hm x hx

/-- C8.  Initialization fills the whole table: after the `initialize`
kernel runs with any launch configuration totalling at least one thread
over a storage of `size` windows, every slot of every window with index
below `size` holds exactly `k`. -/
theorem initialize_fills_table {T : Nat} (hT : 1 ≤ T) (ws : Nat → List K)
    (k : K) (size : Nat) :
    ∀ i < size, ∀ x ∈ initKernel T ws k size i, x = k := by
  intro i hi x hx
  apply initFold_covered hT (List.range T) ws i hi ?_ x hx
  exact List.mem_range.mpr (Nat.mod_lt i (by omega))

/-- C9.  Double hashing yields full-cycle coverage: when the key's second
hash value is coprime to the window count (the "forced odd / non-zero
relative to num_windows" condition), the window indices produced for probe
indices `0 … num_windows - 1` visit every window exactly once. -/
theorem double_hashing_full_cycle (h1k h2k nw : Nat)
    (hco : Nat.Coprime h2k nw) (w : Nat) (hw : w < nw) :
    (doubleHashSeq h1k h2k nw).count w = 1 := by
  have hnw : 0 < nw := by omega
  have hinj : ∀ i, i < nw → ∀ i', i' < nw →
      (h1k + i * h2k) % nw = (h1k + i' * h2k) % nw → i = i' := by
    intro i hi i' hi' he
    have hmod : h1k + i * h2k ≡ h1k + i' * h2k [MOD nw] := he
    have h3 : i * h2k ≡ i' * h2k [MOD nw] :=
      (Nat.ModEq.add_left_cancel' h1k) hmod
    have h4 : i ≡ i' [MOD nw] :=
      Nat.ModEq.cancel_right_of_coprime (Nat.coprime_comm.mp hco) h3
    have h5 : i % nw = i' % nw := h4
    rw [Nat.mod_eq_of_lt hi, Nat.mod_eq_of_lt hi'] at h5
    exact h5
  have hnd : (doubleHashSeq h1k h2k nw).Nodup := by
    apply (List.nodup_range nw).map_on
    intro x hx y hy hxy
    exact hinj x (List.mem_range.mp hx) y (List.mem_range.mp hy) hxy
  have hmem : w ∈ doubleHashSeq h1k h2k nw := by
    have himg : Finset.image (fun i => (h1k + i * h2k) % nw)
        (Finset.range nw) = Finset.range nw := by
      apply Finset.eq_of_subset_of_card_le
      · intro x hx
        obtain ⟨i, _, hi2⟩ := Finset.mem_image.mp hx
        exact Finset.mem_range.mpr (hi2 ▸ Nat.mod_lt _ hnw)
      · rw [Finset.card_image_of_injOn]
        intro a ha b hb hab
        exact hinj a (Finset.mem_range.mp (Finset.mem_coe.mp ha))
          b (Finset.mem_range.mp (Finset.mem_coe.mp hb)) hab
    have hmem' : w ∈ Finset.image (fun i => (h1k + i * h2k) % nw)
        (Finset.range nw) := by
      rw [himg]
      exact Finset.mem_range.mpr hw
    obtain ⟨i, hi, hpi⟩ := Finset.mem_image.mp hmem'
    exact List.mem_map.mpr ⟨i, List.mem_range.mpr (Finset.mem_range.mp hi), hpi⟩
  exact List.count_eq_one_of_mem hnd hmem

/-- C10.  `static_set::supports_concurrent_insert_find()` returns exactly
`cuco::detail::is_packable<value_type>()`, and concurrent insert/find on
the same table is allowed exactly when that function returns true. -/
theorem concurrent_support_iff_packable :
    ∀ p : Bool, (supports_concurrent_insert_find p = true ↔ p = true) ∧
      (concurrentInsertFindAllowed p = true ↔
        supports_concurrent_insert_find p = true) :=
  fun _ => ⟨Iff.rfl, Iff.rfl⟩

/-! ### Concrete executions witnessing the hypotheses of the claims -/

theorem demoProbeOK : ProbeOK demoCfg := by
  constructor
  · intro k i
    show (k + i) % 2 < 2
    omega
  · intro k i hi i' hi' h
    have hi2 : i < 2 := hi
    have hi2' : i' < 2 := hi'
    have h2 : (k + i) % 2 = (k + i') % 2 := h
    omega

theorem no_false_negatives_witness :
    (∀ k ∈ [1], k ≠ demoCfg.sent) ∧
      (run demoCfg (initSys demoCfg [1]) [0, 0]).ops.get? 0 =
        some ⟨1, .done true⟩ ∧
      containsKey demoCfg (run demoCfg (initSys demoCfg [1]) [0, 0]).slots 1 =
        true :=
  ⟨by decide, by decide,
    no_false_negatives demoProbeOK [1] (by decide) [0, 0] 0
      ⟨1, .done true⟩ true (by decide) rfl⟩

theorem no_false_positives_witness :
    (∀ k' ∈ [1], k' ≠ demoCfg.sent) ∧ (∀ k' ∈ [1], k' ≠ 2) ∧
      containsKey demoCfg (run demoCfg (initSys demoCfg [1]) [0, 0]).slots 2 =
        false :=
  ⟨by decide, by decide,
    no_false_positives demoProbeOK [1] (by decide) [0, 0] 2 (by decide)⟩

theorem insert_idempotent_witness :
    ((1 : Nat) ≠ demoCfg.sent) ∧ (0 < 2) ∧ (0 < capacity demoCfg) ∧
      (∀ o ∈ (run demoCfg (initSys demoCfg (List.replicate 2 1))
        [0, 0, 1]).ops, OpState.terminal o.st = true) ∧
      (sizeRead (run demoCfg (initSys demoCfg (List.replicate 2 1))
          [0, 0, 1]) = 1 ∧
        ((Finset.range (capacity demoCfg)).filter
          (fun q => (run demoCfg (initSys demoCfg (List.replicate 2 1))
            [0, 0, 1]).slots q = 1)).card = 1) :=
  ⟨by decide, by decide, by decide, by decide,
    insert_idempotent demoProbeOK 1 (by decide) 2 (by decide) (by decide)
      [0, 0, 1] (by decide)⟩

theorem insert_conservation_witness :
    (∀ k ∈ [1, 2], k ≠ demoCfg.sent) ∧
      (([1, 2] : List Nat).toFinset.card ≤ capacity demoCfg) ∧
      (∀ o ∈ (run demoCfg (initSys demoCfg [1, 2]) [0, 0, 1, 1]).ops,
        OpState.terminal o.st = true) ∧
      sizeRead (run demoCfg (initSys demoCfg [1, 2]) [0, 0, 1, 1]) =
        ([1, 2] : List Nat).toFinset.card :=
  ⟨by decide, by decide, by decide,
    insert_conservation demoProbeOK [1, 2] (by decide) (by decide)
      [0, 0, 1, 1] (by decide)⟩

theorem empty_slot_sound_witness :
    ((2 : Nat) ≠ demoCfg.sent) ∧
      (readSlot demoCfg (run demoCfg (initSys demoCfg [1]) [0, 0]).slots
        2 0 0 = demoCfg.sent) ∧
      readSlot demoCfg (run demoCfg (initSys demoCfg [1]) [0, 0]).slots
        2 1 0 ≠ 2 :=
  ⟨by decide, by decide,
    empty_slot_sound demoProbeOK [1] (by decide) [0, 0] 2 (by decide)
      0 0 1 0 (by decide) (by decide) (by decide) (by decide) (by decide)
      (by decide)⟩

theorem slot_commit_permanent_witness :
    (∀ o ∈ demoSys.ops, o.key ≠ demoCfg.sent) ∧
      (run demoCfg demoSys [0, 0]).slots 0 = 5 :=
  ⟨by decide,
    (slot_commit_permanent demoSys (by decide) [0, 0]).1 0 (by decide)⟩

theorem initialize_fills_table_witness :
    (1 ≤ 2) ∧ ∀ x ∈ initKernel 2 (fun _ => ([0, 0] : List Nat)) 7 3 1, x = 7 :=
  ⟨by decide,
    initialize_fills_table (by decide) (fun _ => ([0, 0] : List Nat)) 7 3 1
      (by decide)⟩

theorem double_hashing_full_cycle_witness :
    Nat.Coprime 3 4 ∧ 2 < 4 ∧ (doubleHashSeq 5 3 4).count 2 = 1 :=
  ⟨by decide, by decide, double_hashing_full_cycle 5 3 4 (by decide) 2 (by decide)⟩

end cuco
